import Mathlib

/-!
Shallow embedding of the Australian legislation XHTML parser
(`stripHtml`, `splitIntoSections`, `extractSectionContent`,
`extractDefinitions`, `parseAustralianHtml`) and proofs of the spec claims.

Strings are modelled as `List Char`; JavaScript string indices (UTF-16 code
units in the source) are modelled as character indices.  Regex scans are
modelled position by position with the exact greedy/lazy/backtracking
behaviour of the source patterns; scans that can skip several characters per
step carry a fuel argument of `length + 1`, which is always sufficient since
every step consumes at least one input character.
-/

set_option maxRecDepth 200000
set_option maxHeartbeats 2000000

namespace AusLaw

abbrev Str := List Char

/-- JavaScript `\s` character class (WhiteSpace plus LineTerminator). -/
def isSpaceJS (c : Char) : Bool :=
  c = ' ' || c = '\t' || c = '\n' || c = '\r' || c = '\x0b' || c = '\x0c' ||
  c = ' ' || c = ' ' || (' ' ≤ c && c ≤ ' ') ||
  c = ' ' || c = ' ' || c = ' ' || c = ' ' ||
  c = '　' || c = '﻿'

/-- JavaScript `\w` character class: ASCII letters, digits and underscore. -/
def isWordJS (c : Char) : Bool :=
  c.isAlpha || c.isDigit || c = '_'

/-- JavaScript `.` excludes line terminators. -/
def isLineTerm (c : Char) : Bool :=
  c = '\n' || c = '\r' || c = ' ' || c = ' '

/-- ASCII letter, the `[A-Za-z]` class of the section-number pattern. -/
def isAsciiLetter (c : Char) : Bool := c.isAlpha

/-- The `[1-9]` class of the heading regex. -/
def digit19 (c : Char) : Bool := '1' ≤ c && c ≤ '9'

/-- Case-insensitive character comparison, modelling the regex `i` flag. -/
def ciEq (a b : Char) : Bool := a.toLower = b.toLower

/-- `pat` is a case-insensitive prefix of the second argument. -/
def ciStarts : Str → Str → Bool
  | [], _ => true
  | _ :: _, [] => false
  | p :: ps, c :: cs => ciEq p c && ciStarts ps cs

/-- `pat` is a (case-sensitive) prefix of the second argument. -/
def litStarts : Str → Str → Bool
  | [], _ => true
  | _ :: _, [] => false
  | p :: ps, c :: cs => p = c && litStarts ps cs

/-- Substring containment, modelling JavaScript `String.prototype.includes`. -/
def containsSeq (pat : Str) : Str → Bool
  | [] => litStarts pat []
  | c :: cs => litStarts pat (c :: cs) || containsSeq pat cs

/-- One left-to-right non-overlapping replace-all scan, the semantics of a
JavaScript global-flag `replace`.  The step function, given the suffix at the
current position, returns the replacement text and the rest after the matched
text.  Each successful step consumes at least one character, so fuel
`length + 1` (as supplied by `runPass`) never runs out. -/
def scanRep (step : Str → Option (Str × Str)) : Nat → Str → Str
  | 0, s => s
  | _ + 1, [] => []
  | f + 1, c :: cs =>
    match step (c :: cs) with
    | some (out, rest) => out ++ scanRep step f rest
    | none => c :: scanRep step f cs

/-- Run one replace-all pass over a whole string. -/
def runPass (step : Str → Option (Str × Str)) (s : Str) : Str :=
  scanRep step (s.length + 1) s

/-- Step for `/<[^>]+>/g`: a `<`, at least one non-`>` character, then `>`,
replaced by a single space. -/
def tagStep (s : Str) : Option (Str × Str) :=
  match s with
  | '<' :: cs =>
    match cs.takeWhile (fun c => c ≠ '>'), cs.dropWhile (fun c => c ≠ '>') with
    | _ :: _, _ :: rest => some ([' '], rest)
    | _, _ => none
  | _ => none

/-- Step for a literal entity replacement; `ci` selects the `i` flag. -/
def litStep (ci : Bool) (pat rep : Str) (s : Str) : Option (Str × Str) :=
  if (if ci then ciStarts pat s else litStarts pat s) then
    some (rep, s.drop pat.length)
  else none

/-- Step for `/&#x201[cCdD];/gi`. -/
def quoteHexStep (s : Str) : Option (Str × Str) :=
  if ciStarts "&#x201c;".toList s || ciStarts "&#x201d;".toList s then
    some (['"'], s.drop 8)
  else none

/-- Step for the generic `/&#x\w+;/gi` pass: any remaining hexadecimal-style
numeric reference decodes to a single space. -/
def hexEntStep (s : Str) : Option (Str × Str) :=
  match s with
  | a :: b :: x :: rest =>
    if ciEq a '&' && ciEq b '#' && ciEq x 'x' then
      match rest.takeWhile isWordJS, rest.dropWhile isWordJS with
      | _ :: _, ';' :: r => some ([' '], r)
      | _, _ => none
    else none
  | _ => none

/-- Whitespace-run collapse, the `/\s+/g → " "` pass. -/
def collapseWsGo : Bool → Str → Str
  | _, [] => []
  | inRun, c :: cs =>
    if isSpaceJS c then
      if inRun then collapseWsGo true cs else ' ' :: collapseWsGo true cs
    else c :: collapseWsGo false cs

def collapseWs (s : Str) : Str := collapseWsGo false s

/-- JavaScript `String.prototype.trim`. -/
def jsTrim (s : Str) : Str :=
  ((s.dropWhile isSpaceJS).reverse.dropWhile isSpaceJS).reverse

/-- `stripHtml`: strip tags, decode the fixed entity table (in source order),
collapse whitespace, trim. -/
def stripHtml (s : Str) : Str :=
  let s := runPass tagStep s
  let s := runPass (litStep true "&#xa0;".toList [' ']) s
  let s := runPass (litStep true "&#x2011;".toList ['-']) s
  let s := runPass (litStep true "&#x2013;".toList ['–']) s
  let s := runPass (litStep true "&#x2014;".toList ['—']) s
  let s := runPass (litStep true "&#x2018;".toList ['‘']) s
  let s := runPass (litStep true "&#x2019;".toList ['’']) s
  let s := runPass quoteHexStep s
  let s := runPass hexEntStep s
  let s := runPass (litStep true "&nbsp;".toList [' ']) s
  let s := runPass (litStep false "&amp;".toList ['&']) s
  let s := runPass (litStep false "&lt;".toList ['<']) s
  let s := runPass (litStep false "&gt;".toList ['>']) s
  let s := runPass (litStep false "&quot;".toList ['"']) s
  let s := runPass (litStep false "&#39;".toList ['\'']) s
  let s := runPass (litStep false "&rsquo;".toList ['’']) s
  let s := runPass (litStep false "&lsquo;".toList ['‘']) s
  let s := runPass (litStep false "&rdquo;".toList ['”']) s
  let s := runPass (litStep false "&ldquo;".toList ['“']) s
  let s := runPass (litStep false "&mdash;".toList ['—']) s
  let s := runPass (litStep false "&ndash;".toList ['–']) s
  jsTrim (collapseWs s)

/-- Split at the first case-insensitive occurrence of `pat`, returning the
text before it and the text after it.  Models the lazy `([\s\S]*?)` group
followed by a literal. -/
def splitFirstCI (pat : Str) : Str → Option (Str × Str)
  | [] => none
  | c :: cs =>
    if ciStarts pat (c :: cs) then some ([], (c :: cs).drop pat.length)
    else
      match splitFirstCI pat cs with
      | some (a, b) => some (c :: a, b)
      | none => none

/-- A paragraph-tag match: captured class, raw inner HTML, match start offset
and end offset (JavaScript `match.index` and `index + match[0].length`). -/
structure PMatch where
  cls : Str
  inner : Str
  index : Nat
  endPos : Nat
deriving DecidableEq

/-- The `(?:ActHead|New|Heading)[1-9]` class alternative of the heading
regex: one family name (case-insensitively), one digit `1`–`9`, then the
closing quote.  Returns the captured class text and the rest after the
quote. -/
def tryFamily (fam : Str) (s : Str) : Option (Str × Str) :=
  if ciStarts fam s then
    match s.drop fam.length with
    | c :: q :: r =>
      if digit19 c && q = '"' then some (s.take fam.length ++ [c], r) else none
    | _ => none
  else none

def classAltHeading (s : Str) : Option (Str × Str) :=
  match tryFamily "ActHead".toList s with
  | some r => some r
  | none =>
    match tryFamily "New".toList s with
    | some r => some r
    | none => tryFamily "Heading".toList s

/-- The content classes of `CONTENT_CLASSES`, in source order. -/
def CONTENT_CLASSES : List Str :=
  ["subsection", "subsection2", "paragraph", "paragraphsub", "paragraphsub-sub",
   "Definition", "Penalty", "notetext", "notepara", "SubsectionHead",
   "Tabletext", "Tablea", "TableHeading", "SOText", "SOPara", "SOBullet",
   "indenta", "indentii", "Item", "NewItem", "Emphasis"].map String.toList

/-- A class alternation of literal class names followed by the closing quote,
tried in order with regex backtracking. -/
def tryClasses : List Str → Str → Option (Str × Str)
  | [], _ => none
  | cl :: rest, s =>
    if ciStarts cl s then
      match s.drop cl.length with
      | q :: r => if q = '"' then some (s.take cl.length, r) else tryClasses rest s
      | [] => tryClasses rest s
    else tryClasses rest s

def classAltContent (s : Str) : Option (Str × Str) :=
  tryClasses CONTENT_CLASSES s

def classAltDef (s : Str) : Option (Str × Str) :=
  tryClasses ["Definition".toList] s

/-- The `[^>]*>` part: skip to the first `>`, which must exist, and consume
it. -/
def afterGt (s : Str) : Option Str :=
  match s.dropWhile (fun c => c ≠ '>') with
  | q :: rest => if q = '>' then some rest else none
  | [] => none

/-- One candidate position for the greedy `[^>]*class="` part: try the class
alternation at offset `j` after `<p`, then `[^>]*>` (everything up to the
first `>`), then the lazy inner text up to the first `</p>`. -/
def attemptAt (alt : Str → Option (Str × Str)) (s2 : Str) (j : Nat) :
    Option (Str × Str × Str) :=
  let tl := s2.drop j
  if ciStarts "class=\"".toList tl then
    match alt (tl.drop 7) with
    | some (cls, afterQuote) =>
      match afterGt afterQuote with
      | some after3 =>
        match splitFirstCI "</p>".toList after3 with
        | some (inner, rest) => some (cls, inner, rest)
        | none => none
      | none => none
    | none => none
  else none

/-- Greedy `[^>]*` with backtracking: candidate offsets are tried from the
largest (the full run of non-`>` characters after `<p`) down to zero. -/
def tryClassPos (alt : Str → Option (Str × Str)) (s2 : Str) :
    Nat → Option (Str × Str × Str)
  | 0 => attemptAt alt s2 0
  | j + 1 =>
    match attemptAt alt s2 (j + 1) with
    | some r => some r
    | none => tryClassPos alt s2 j

/-- Try to match `<p[^>]*class="(ALT)"[^>]*>([\s\S]*?)</p>` (case-insensitive)
at the start of `s`.  Returns the captured class, the raw inner HTML and the
rest of the input after the match. -/
def matchPTagAt (alt : Str → Option (Str × Str)) (s : Str) :
    Option (Str × Str × Str) :=
  match s with
  | c0 :: c1 :: s2 =>
    if ciEq c0 '<' && ciEq c1 'p' then
      tryClassPos alt s2 ((s2.takeWhile (fun c => c ≠ '>')).length)
    else none
  | _ => none

/-- The global `exec` loop: find all non-overlapping matches left to right,
recording offsets.  Fuel `length + 1` suffices since every step consumes at
least one character. -/
def scanPTagsGo (alt : Str → Option (Str × Str)) :
    Nat → Str → Nat → List PMatch
  | 0, _, _ => []
  | _ + 1, [], _ => []
  | f + 1, c :: cs, pos =>
    match matchPTagAt alt (c :: cs) with
    | some (cls, inner, rest) =>
      ⟨cls, inner, pos, pos + ((c :: cs).length - rest.length)⟩ ::
        scanPTagsGo alt f rest (pos + ((c :: cs).length - rest.length))
    | none => scanPTagsGo alt f cs (pos + 1)

def scanPTags (alt : Str → Option (Str × Str)) (s : Str) : List PMatch :=
  scanPTagsGo alt (s.length + 1) s 0

/-- A heading as recorded by `splitIntoSections`: raw class, normalized text,
start offset and end offset of the whole match. -/
structure RawHeading where
  cls : Str
  text : Str
  index : Nat
  endPos : Nat
deriving DecidableEq

def scanHeadings (html : Str) : List RawHeading :=
  (scanPTags classAltHeading html).map fun m =>
    ⟨m.cls, stripHtml m.inner, m.index, m.endPos⟩

/-- `heading.class.match(/(\d)$/)` followed by `parseInt`, defaulting to 0. -/
def headingLevel (cls : Str) : Nat :=
  match cls.getLast? with
  | some c => if c.isDigit then c.toNat - '0'.toNat else 0
  | none => 0

/-- The two mutable context fields of `splitIntoSections`. -/
structure Ctx where
  part : Option Str
  division : Option Str
deriving DecidableEq

/-- The context update of the heading loop: levels 1 and 2 set the part and
clear the division, levels 3 and 4 set the division, all other levels leave
the context unchanged. -/
def stepCtx (ctx : Ctx) (h : RawHeading) : Ctx :=
  let level := headingLevel h.cls
  if level = 1 then ⟨some h.text, none⟩
  else if level = 2 then ⟨some h.text, none⟩
  else if level = 3 then ⟨ctx.part, some h.text⟩
  else if level = 4 then ⟨ctx.part, some h.text⟩
  else ctx

def joinSep (sep : Str) : List Str → Str
  | [] => []
  | [x] => x
  | x :: y :: xs => x ++ sep ++ joinSep sep (y :: xs)

/-- `[currentPart, currentDivision].filter(Boolean).join(' > ') || undefined`:
drop absent or empty labels, join with `" > "`, and an empty result becomes
`undefined`. -/
def joinCtx (ctx : Ctx) : Option Str :=
  let kept := ([ctx.part, ctx.division].filterMap id).filter (fun s => !s.isEmpty)
  let joined := joinSep " > ".toList kept
  if joined.isEmpty then none else some joined

/-- The section-number pattern `/^(\d+(?:\.\d+)*[A-Za-z]*)\s+(.*)/`.  The
greedy scan used here is equivalent to the backtracking regex because no
shorter choice of an earlier group can expose the whitespace `\s+` needs. -/
def eatDotDigits : Nat → Str → Str × Str
  | 0, s => ([], s)
  | f + 1, s =>
    match s with
    | '.' :: rest =>
      match rest.takeWhile Char.isDigit with
      | [] => ([], s)
      | _ :: _ =>
        let r := eatDotDigits f (rest.dropWhile Char.isDigit)
        ('.' :: rest.takeWhile Char.isDigit ++ r.1, r.2)
    | _ => ([], s)

def sectMatch (t : Str) : Option (Str × Str) :=
  match t.takeWhile Char.isDigit with
  | [] => none
  | _ :: _ =>
    let r1 := t.dropWhile Char.isDigit
    let g := eatDotDigits (r1.length + 1) r1
    let ls := g.2.takeWhile isAsciiLetter
    let r3 := g.2.dropWhile isAsciiLetter
    match r3.takeWhile isSpaceJS with
    | [] => none
    | _ :: _ =>
      some (t.takeWhile Char.isDigit ++ g.1 ++ ls,
        (r3.dropWhile isSpaceJS).takeWhile (fun c => !isLineTerm c))

/-- JavaScript `String.prototype.substring`: clamp both indices to the string
length and swap them when out of order. -/
def jsSubstring (s : Str) (a b : Nat) : Str :=
  (s.take (max (min a s.length) (min b s.length))).drop
    (min (min a s.length) (min b s.length))

/-- A section unit produced by `splitIntoSections`. -/
structure Sec where
  sectionNum : Str
  sectionTitle : Str
  bodyHtml : Str
  partContext : Option Str
  position : Nat
deriving DecidableEq

/-- The heading loop of `splitIntoSections`: fold the context while emitting
a `Sec` for every section-level heading (level 5, or the legacy level 9)
whose text matches the section-number pattern.  The body span runs from the
end of the heading's own match to the start of the next heading match, or to
the end of the document for the last heading. -/
def buildSections (html : Str) : List RawHeading → Ctx → List Sec
  | [], _ => []
  | h :: rest, ctx =>
    let level := headingLevel h.cls
    (if level = 5 ∨ level = 9 then
      match sectMatch h.text with
      | none => []
      | some (num, title) =>
        [⟨num, jsTrim title,
          jsSubstring html h.endPos
            (match rest with
             | [] => html.length
             | h2 :: _ => h2.index),
          joinCtx ctx, h.index⟩]
    else []) ++ buildSections html rest (stepCtx ctx h)

def splitIntoSections (html : Str) : List Sec :=
  buildSections html (scanHeadings html) ⟨none, none⟩

/-- `extractSectionContent`: collect normalized content-class fragments
longer than 2 characters; if none survive, fall back to the normalized whole
body when it is longer than 10 characters; join with spaces and cap at 8000
characters. -/
def extractSectionContent (body : Str) : Str :=
  let parts := ((scanPTags classAltContent body).map
      (fun m => stripHtml m.inner)).filter (fun t => 2 < t.length)
  let parts :=
    if parts.isEmpty then
      if 10 < (stripHtml body).length then [stripHtml body] else []
    else parts
  (joinSep [' '] parts).take 8000

structure Defn where
  term : Str
  definition : Str
  source_provision : Option Str
deriving DecidableEq

/-- Match a literal tag name (case-insensitively) followed by `>`. -/
def tryTagOpen (t : Str) (r : Str) : Option Str :=
  if ciStarts t r then
    match r.drop t.length with
    | q :: rest => if q = '>' then some rest else none
    | [] => none
  else none

/-- One candidate offset for `span[^>]*font-style:\s*italic[^>]*>`. -/
def spanAttempt (r2 : Str) (j : Nat) : Option Str :=
  let t := r2.drop j
  if ciStarts "font-style:".toList t then
    let t2 := (t.drop 11).dropWhile isSpaceJS
    if ciStarts "italic".toList t2 then afterGt (t2.drop 6)
    else none
  else none

def trySpanPos (r2 : Str) : Nat → Option Str
  | 0 => spanAttempt r2 0
  | j + 1 =>
    match spanAttempt r2 (j + 1) with
    | some x => some x
    | none => trySpanPos r2 j

def spanItalicOpen (r : Str) : Option Str :=
  if ciStarts "span".toList r then
    let r2 := r.drop 4
    trySpanPos r2 ((r2.takeWhile (fun c => c ≠ '>')).length)
  else none

/-- The opening-tag alternation `<(?:b|i|em|strong|span[^>]*font-style:\s*italic[^>]*)>`
tried at the start of `s`; returns the rest after the `>`. -/
def emphOpen (s : Str) : Option Str :=
  match s with
  | c :: r =>
    if ciEq c '<' then
      match tryTagOpen "b".toList r with
      | some x => some x
      | none =>
        match tryTagOpen "i".toList r with
        | some x => some x
        | none =>
          match tryTagOpen "em".toList r with
          | some x => some x
          | none =>
            match tryTagOpen "strong".toList r with
            | some x => some x
            | none => spanItalicOpen r
    else none
  | [] => none

/-- The closing alternation `</(?:b|i|em|strong|span)>` tried at the start of
`s`; returns the rest after it. -/
def closeAt (s : Str) : Option Str :=
  match s with
  | c0 :: c1 :: r =>
    if ciEq c0 '<' && ciEq c1 '/' then
      match tryTagOpen "b".toList r with
      | some x => some x
      | none =>
        match tryTagOpen "i".toList r with
        | some x => some x
        | none =>
          match tryTagOpen "em".toList r with
          | some x => some x
          | none =>
            match tryTagOpen "strong".toList r with
            | some x => some x
            | none => tryTagOpen "span".toList r
    else none
  | _ => none

/-- Lazy scan for the first closing emphasis tag, accumulating the captured
inner text. -/
def findInnerGo : Nat → Str → Option (Str × Str)
  | 0, _ => none
  | _ + 1, [] => none
  | f + 1, c :: cs =>
    match closeAt (c :: cs) with
    | some rest => some ([], rest)
    | none =>
      match findInnerGo f cs with
      | some (a, r) => some (c :: a, r)
      | none => none

/-- First match of the emphasis-term regex over a raw fragment; returns the
captured group (the raw inner text of the first emphasis span). -/
def findTermGo : Nat → Str → Option Str
  | 0, _ => none
  | _ + 1, [] => none
  | f + 1, c :: cs =>
    match emphOpen (c :: cs) with
    | some afterOpen =>
      match findInnerGo (afterOpen.length + 1) afterOpen with
      | some (inner, _) => some inner
      | none => findTermGo f cs
    | none => findTermGo f cs

def findTerm (s : Str) : Option Str :=
  findTermGo (s.length + 1) s

/-- `extractDefinitions`: for every `Definition`-class fragment, normalize the
whole fragment as the definition text (capped at 4000 characters) and accept
it only when the first emphasis span yields a normalized, trimmed term of
length strictly between 1 and 100. -/
def extractDefinitions (body : Str) (provisionRef : Str) : List Defn :=
  (scanPTags classAltDef body).filterMap fun m =>
    match findTerm m.inner with
    | none => none
    | some raw =>
      let term := jsTrim (stripHtml raw)
      if term ≠ [] ∧ 1 < term.length ∧ term.length < 100 then
        some ⟨term, (stripHtml m.inner).take 4000, some provisionRef⟩
      else none

structure ParsedProvision where
  provision_ref : Str
  chapter : Option Str
  section' : Str
  title : Str
  content : Str
deriving DecidableEq

inductive ActStatus
  | in_force
  | amended
  | repealed
  | not_yet_in_force
deriving DecidableEq

structure ActIndexEntry where
  id : Str
  title : Str
  year : Nat
  titleId : Str
  url : Str
  status : ActStatus
deriving DecidableEq

structure VersionInfo where
  titleId : Str
  name : Str
  status : Str
  registerId : Str
  start : Str
  retrospectiveStart : Str
  compilationNumber : Str
  isLatest : Bool
  isCurrent : Bool
  makingDate : Option Str
deriving DecidableEq

structure ParsedAct where
  id : Str
  typeTag : Str
  title : Str
  title_en : Str
  short_name : Str
  status : ActStatus
  issued_date : Str
  in_force_date : Str
  url : Str
  description : Str
  provisions : List ParsedProvision
  definitions : List Defn
deriving DecidableEq

/-- The definitions-section heuristic on the lowercased section title. -/
def isDefTitle (title : Str) : Bool :=
  let lower := title.map Char.toLower
  containsSeq "interpretation".toList lower ||
  containsSeq "definition".toList lower ||
  lower = "definitions".toList

/-- The section loop of `parseAustralianHtml`: the provision reference is
`"s" + sectionNumber`; a reference already seen skips the whole section; the
reference is recorded in the seen set before the content check; a section
whose extracted content is shorter than 5 characters is dropped; otherwise
the provision is emitted and, when the title matches the definitions
heuristic, the section's definitions are appended. -/
def assembleGo : List Sec → List Str → List ParsedProvision × List Defn
  | [], _ => ([], [])
  | s :: rest, seen =>
    if ('s' :: s.sectionNum) ∈ seen then assembleGo rest seen
    else
      if (extractSectionContent s.bodyHtml).length < 5 then
        assembleGo rest (('s' :: s.sectionNum) :: seen)
      else
        (⟨'s' :: s.sectionNum, s.partContext, s.sectionNum, s.sectionTitle,
            extractSectionContent s.bodyHtml⟩ ::
          (assembleGo rest (('s' :: s.sectionNum) :: seen)).1,
         (if isDefTitle s.sectionTitle then
            extractDefinitions s.bodyHtml ('s' :: s.sectionNum)
          else []) ++ (assembleGo rest (('s' :: s.sectionNum) :: seen)).2)

/-- The fixed API-status lookup table. -/
def statusMap (s : Str) : Option ActStatus :=
  if s = "InForce".toList then some .in_force
  else if s = "Ceased".toList then some .repealed
  else if s = "Repealed".toList then some .repealed
  else if s = "NeverEffective".toList then some .repealed
  else none

/-- `isoDateTime.split('T')[0]`. -/
def splitDateT (s : Str) : Str := s.takeWhile (fun c => c ≠ 'T')

def natStr (n : Nat) : Str := (toString n).toList

/-- `parseAustralianHtml`. -/
def parseAustralianHtml (html : Str) (act : ActIndexEntry)
    (versionInfo : Option VersionInfo) : ParsedAct :=
  let res := assembleGo (splitIntoSections html) []
  let defaultDate := natStr act.year ++ "-01-01".toList
  let makingDate :=
    match versionInfo with
    | some v =>
      match v.makingDate with
      | some d => if d.isEmpty then defaultDate else splitDateT d
      | none => defaultDate
    | none => defaultDate
  let inForceDate :=
    match versionInfo with
    | some v => if v.start.isEmpty then defaultDate else splitDateT v.start
    | none => defaultDate
  let status :=
    match versionInfo with
    | some v =>
      if v.status.isEmpty then act.status
      else (statusMap v.status).getD .in_force
    | none => act.status
  let description :=
    act.title ++ " - Australian federal legislation. Register ID: ".toList ++
    (match versionInfo with
     | some v => v.registerId
     | none => "unknown".toList) ++
    ". Compilation number: ".toList ++
    (match versionInfo with
     | some v => v.compilationNumber
     | none => "unknown".toList) ++
    ". Source: Federal Register of Legislation (legislation.gov.au).".toList
  { id := act.id
    typeTag := "statute".toList
    title := act.title
    title_en := act.title
    short_name := act.title
    status := status
    issued_date := makingDate
    in_force_date := inForceDate
    url := act.url
    description := description
    provisions := res.1
    definitions := res.2 }

/-! ### Concrete inputs used by witnesses and counterexamples -/

/-- A document descriptor used as a fixed test input. -/
def actA : ActIndexEntry :=
  ⟨"a".toList, "T".toList, 2000, "t".toList, "u".toList, .in_force⟩

/-- Markup of the spec's end-to-end scenario A: a part heading, a section
heading `6  Interpretation`, and one `Definition` fragment. -/
def cHtmlA : Str :=
  "<p class=\"ActHead2\">Part I—Preliminary</p><p class=\"ActHead5\">6  Interpretation</p><p class=\"Definition\"><b>personal information</b> means information about an identified individual.</p>".toList

/-- Markup with two sections both numbered 10: the first has a body whose
extracted content is empty, the second has real content. -/
def cHtmlC1 : Str :=
  "<p class=\"ActHead5\">10 First</p>x<p class=\"ActHead5\">10 Second</p><p class=\"subsection\">(1) Some real content here.</p>".toList

/-- Fifty `x` characters: a plain paragraph body above the fallback floor. -/
def d1text : Str := List.replicate 50 'x'

/-- A section followed by a class-less 50-character paragraph. -/
def cHtmlD1 : Str :=
  "<p class=\"ActHead5\">10 Things</p><p>".toList ++ d1text ++ "</p>".toList

/-- A section followed by a class-less 8-character paragraph. -/
def cHtmlD2 : Str :=
  "<p class=\"ActHead5\">10 Things</p><p>12345678</p>".toList

/-- A body span that is one class-less 50-character paragraph. -/
def cBodyF : Str := "<p>".toList ++ d1text ++ "</p>".toList

/-- A section-level heading with malformed text, followed by content. -/
def cHtmlC7 : Str :=
  "<p class=\"ActHead5\">—Schedule—</p><p class=\"subsection\">Content here for test.</p>".toList

/-- A malformed section-level heading record. -/
def cHeadC7 : RawHeading := ⟨"ActHead5".toList, "—Schedule—".toList, 0, 34⟩

/-- A definitions-titled section whose extracted content is empty. -/
def cSecC4 : Sec := ⟨"4".toList, "Definitions".toList, "<p>hi</p>".toList, none, 0⟩

/-- The provision produced from scenario A. -/
def pA : ParsedProvision :=
  ⟨"s6".toList, some "Part I—Preliminary".toList, "6".toList,
   "Interpretation".toList,
   "personal information means information about an identified individual.".toList⟩

/-- The definition produced from scenario A. -/
def dA : Defn :=
  ⟨"personal information".toList,
   "personal information means information about an identified individual.".toList,
   some "s6".toList⟩

/-! ### Helper lemmas -/

theorem extractSectionContent_length_le (b : Str) :
    (extractSectionContent b).length ≤ 8000 := by
  unfold extractSectionContent
  simp only [List.length_take]
  omega

theorem extractDefinitions_mem {b r : Str} {d : Defn}
    (hd : d ∈ extractDefinitions b r) :
    d.definition.length ≤ 4000 ∧ d.source_provision = some r := by
  unfold extractDefinitions at hd
  rw [List.mem_filterMap] at hd
  obtain ⟨m, -, hm⟩ := hd
  cases hft : findTerm m.inner with
  | none => rw [hft] at hm; simp at hm
  | some raw =>
    rw [hft] at hm
    simp only [] at hm
    split at hm
    · have := Option.some.inj hm
      subst this
      refine ⟨?_, rfl⟩
      simp only [List.length_take]
      omega
    · simp at hm

theorem assembleGo_content_le (ss : List Sec) (seen : List Str) :
    ∀ p ∈ (assembleGo ss seen).1, p.content.length ≤ 8000 := by
  induction ss generalizing seen with
  | nil => intro p hp; simp [assembleGo] at hp
  | cons s rest ih =>
    intro p hp
    by_cases h1 : ('s' :: s.sectionNum) ∈ seen
    · rw [assembleGo, if_pos h1] at hp
      exact ih seen p hp
    · by_cases h2 : (extractSectionContent s.bodyHtml).length < 5
      · rw [assembleGo, if_neg h1, if_pos h2] at hp
        exact ih _ p hp
      · rw [assembleGo, if_neg h1, if_neg h2] at hp
        simp only [List.mem_cons] at hp
        rcases hp with h | h
        · subst h; exact extractSectionContent_length_le _
        · exact ih _ p h

theorem assembleGo_defn_le (ss : List Sec) (seen : List Str) :
    ∀ d ∈ (assembleGo ss seen).2, d.definition.length ≤ 4000 := by
  induction ss generalizing seen with
  | nil => intro d hd; simp [assembleGo] at hd
  | cons s rest ih =>
    intro d hd
    by_cases h1 : ('s' :: s.sectionNum) ∈ seen
    · rw [assembleGo, if_pos h1] at hd
      exact ih seen d hd
    · by_cases h2 : (extractSectionContent s.bodyHtml).length < 5
      · rw [assembleGo, if_neg h1, if_pos h2] at hd
        exact ih _ d hd
      · rw [assembleGo, if_neg h1, if_neg h2] at hd
        simp only [List.mem_append] at hd
        rcases hd with h | h
        · split at h
          · exact (extractDefinitions_mem h).1
          · simp at h
        · exact ih _ d h

theorem assembleGo_defs_source (ss : List Sec) (seen : List Str) :
    ∀ d ∈ (assembleGo ss seen).2, ∃ p ∈ (assembleGo ss seen).1,
      d.source_provision = some p.provision_ref := by
  induction ss generalizing seen with
  | nil => intro d hd; simp [assembleGo] at hd
  | cons s rest ih =>
    intro d hd
    by_cases h1 : ('s' :: s.sectionNum) ∈ seen
    · rw [assembleGo, if_pos h1] at hd ⊢
      exact ih seen d hd
    · by_cases h2 : (extractSectionContent s.bodyHtml).length < 5
      · rw [assembleGo, if_neg h1, if_pos h2] at hd ⊢
        exact ih _ d hd
      · rw [assembleGo, if_neg h1, if_neg h2] at hd ⊢
        simp only [List.mem_append] at hd
        rcases hd with h | h
        · split at h
          · exact ⟨_, List.mem_cons_self _ _, (extractDefinitions_mem h).2⟩
          · simp at h
        · obtain ⟨p, hp, he⟩ := ih (('s' :: s.sectionNum) :: seen) d h
          exact ⟨p, List.mem_cons_of_mem _ hp, he⟩

/-! ### Claim C9 -/

/-- C9: in every record produced by `parseAustralianHtml`, every provision's
content has length at most 8000 and every definition's text has length at
most 4000, for any input markup, descriptor and version metadata. -/
theorem C9_caps (html : Str) (act : ActIndexEntry) (vinfo : Option VersionInfo) :
    (∀ p ∈ (parseAustralianHtml html act vinfo).provisions,
        p.content.length ≤ 8000) ∧
    (∀ d ∈ (parseAustralianHtml html act vinfo).definitions,
        d.definition.length ≤ 4000) :=
  ⟨fun p hp => assembleGo_content_le (splitIntoSections html) [] p hp,
   fun d hd => assembleGo_defn_le (splitIntoSections html) [] d hd⟩

/-- Witness for C9 at the concrete scenario-A markup, which produces one
provision and one definition. -/
theorem C9_caps_witness :
    pA ∈ (parseAustralianHtml cHtmlA actA none).provisions ∧
    dA ∈ (parseAustralianHtml cHtmlA actA none).definitions ∧
    pA.content.length ≤ 8000 ∧ dA.definition.length ≤ 4000 :=
  ⟨by decide, by decide,
   (C9_caps cHtmlA actA none).1 pA (by decide),
   (C9_caps cHtmlA actA none).2 dA (by decide)⟩

/-! ### Claim C10 -/

/-- C10: every definition in a parsed record has its `source_provision` set,
and it equals the `provision_ref` of a provision present in the same
record's provisions sequence. -/
theorem C10_definition_sources (html : Str) (act : ActIndexEntry)
    (vinfo : Option VersionInfo) (d : Defn)
    (hd : d ∈ (parseAustralianHtml html act vinfo).definitions) :
    ∃ p ∈ (parseAustralianHtml html act vinfo).provisions,
      d.source_provision = some p.provision_ref :=
  assembleGo_defs_source (splitIntoSections html) [] d hd

/-- Witness for C10 at the concrete scenario-A markup. -/
theorem C10_definition_sources_witness :
    ∃ p ∈ (parseAustralianHtml cHtmlA actA none).provisions,
      dA.source_provision = some p.provision_ref :=
  C10_definition_sources cHtmlA actA none dA (by decide)

/-! ### Claim C1 -/

/-- The first-occurrence filter actually applied by the assembler: a section
reserves its reference at the moment it is reached, whether or not a
provision is later emitted for it. -/
def firstOccur : List Str → List Sec → List Sec
  | _, [] => []
  | seen, s :: rest =>
    if ('s' :: s.sectionNum) ∈ seen then firstOccur seen rest
    else s :: firstOccur (('s' :: s.sectionNum) :: seen) rest

/-- The content-length floor applied after deduplication. -/
def keepsContent (s : Sec) : Bool :=
  decide (5 ≤ (extractSectionContent s.bodyHtml).length)

/-- The provision built from a surviving section. -/
def provOf (s : Sec) : ParsedProvision :=
  ⟨'s' :: s.sectionNum, s.partContext, s.sectionNum, s.sectionTitle,
   extractSectionContent s.bodyHtml⟩

/-- C1 counterexample: in `cHtmlC1` both sections carry reference `s10`; the
first is dropped for short content (length 0), so no provision with
reference `s10` is ever emitted — yet the second section is still skipped as
a duplicate and the record has no provisions at all.  Under the claim as
stated ("skipped exactly when a provision with the same reference was
already emitted") the second section would have been emitted. -/
theorem C1_counterexample :
    ((splitIntoSections cHtmlC1).map fun s =>
        ('s' :: s.sectionNum, (extractSectionContent s.bodyHtml).length)) =
      [("s10".toList, 0), ("s10".toList, 27)] ∧
    (parseAustralianHtml cHtmlC1 actA none).provisions = [] := by
  constructor
  · decide
  · decide

/-- C1 amended: sections are iterated in document order and a section is
skipped as a duplicate exactly when an earlier section with the same
reference `"s" + sectionNumber` was already reached (the reference is
reserved before the content check, regardless of whether that earlier
section's provision was emitted); the first occurrence wins and later
duplicates are discarded entirely, including their content.  The emitted
provisions are exactly the first-occurrence sections that pass the
content-length floor, in document order. -/
theorem C1_dedup_by_first_occurrence (ss : List Sec) (seen : List Str) :
    (assembleGo ss seen).1 = ((firstOccur seen ss).filter keepsContent).map provOf := by
  induction ss generalizing seen with
  | nil => simp [assembleGo, firstOccur]
  | cons s rest ih =>
    by_cases h1 : ('s' :: s.sectionNum) ∈ seen
    · rw [assembleGo, if_pos h1, firstOccur, if_pos h1]
      exact ih seen
    · by_cases h2 : (extractSectionContent s.bodyHtml).length < 5
      · rw [assembleGo, if_neg h1, if_pos h2, firstOccur, if_neg h1]
        have hk : keepsContent s = false := by
          simp only [keepsContent, decide_eq_false_iff_not]
          omega
        simp [List.filter_cons, hk, ih]
      · rw [assembleGo, if_neg h1, if_neg h2, firstOccur, if_neg h1]
        have hk : keepsContent s = true := by
          simp only [keepsContent, decide_eq_true_eq]
          omega
        simp [List.filter_cons, hk, ih, provOf]

/-! ### Claim C4 -/

/-- C4: a section whose extracted content has length below 5 contributes
neither a provision nor a definition scan — its only effect on the
assembler state is reserving its reference in the seen set; in particular
this holds even when its title matches the definitions heuristic, since the
equation does not depend on the title. -/
theorem C4_short_section_inert (s : Sec) (rest : List Sec) (seen : List Str)
    (h : (extractSectionContent s.bodyHtml).length < 5) :
    assembleGo (s :: rest) seen =
      assembleGo rest
        (if ('s' :: s.sectionNum) ∈ seen then seen
         else ('s' :: s.sectionNum) :: seen) := by
  by_cases h1 : ('s' :: s.sectionNum) ∈ seen
  · rw [assembleGo, if_pos h1, if_pos h1]
  · rw [assembleGo, if_neg h1, if_pos h, if_neg h1]

/-- Witness for C4: a section titled `Definitions` (matching the heuristic)
with empty extracted content yields no provision and no definition. -/
theorem C4_short_section_inert_witness :
    isDefTitle cSecC4.sectionTitle = true ∧
    (extractSectionContent cSecC4.bodyHtml).length < 5 ∧
    assembleGo [cSecC4] [] = ([], []) := by
  refine ⟨by decide, by decide, ?_⟩
  rw [C4_short_section_inert cSecC4 [] [] (by decide)]
  rfl

/-! ### Claim C3 -/

/-- C3: if zero recognized content-class fragments are found in a body span,
the whole normalized body span is used as one fragment and accepted only if
its normalized length exceeds 10 characters, otherwise the section
contributes no content; concretely, a body span with only a 50-character
plain paragraph yields a provision via the fallback, while one with only an
8-character plain paragraph yields no provision. -/
theorem C3_fallback_floor :
    (∀ body : Str, scanPTags classAltContent body = [] →
        extractSectionContent body =
          if 10 < (stripHtml body).length then (stripHtml body).take 8000
          else []) ∧
    (parseAustralianHtml cHtmlD1 actA none).provisions =
      [⟨"s10".toList, none, "10".toList, "Things".toList, d1text⟩] ∧
    (parseAustralianHtml cHtmlD2 actA none).provisions = [] := by
  refine ⟨?_, by decide, by decide⟩
  intro body h
  unfold extractSectionContent
  rw [h]
  simp only [List.map_nil, List.filter_nil, List.isEmpty_nil, if_true]
  by_cases h10 : 10 < (stripHtml body).length
  · rw [if_pos h10, if_pos h10]
    rfl
  · rw [if_neg h10, if_neg h10]
    rfl

/-- Witness for C3 at a concrete fragment-free body span. -/
theorem C3_fallback_floor_witness :
    extractSectionContent cBodyF =
      if 10 < (stripHtml cBodyF).length then (stripHtml cBodyF).take 8000
      else [] :=
  C3_fallback_floor.1 cBodyF (by decide)

/-! ### Claim C7 -/

/-- C7: a section-level heading (level 5, or the legacy level 9) whose
normalized text does not match the leading-token section-number pattern is
silently skipped: the heading loop behaves exactly as if the heading were
absent, so it contributes no section and hence no provision and no
definition downstream, and — all functions involved being total — no error
or warning is ever reported.  Concretely, a document whose only section
heading has text `—Schedule—` parses to a record with no provisions and no
definitions. -/
theorem C7_malformed_heading_skipped :
    (∀ (html : Str) (h : RawHeading) (rest : List RawHeading) (ctx : Ctx),
        (headingLevel h.cls = 5 ∨ headingLevel h.cls = 9) →
        sectMatch h.text = none →
        buildSections html (h :: rest) ctx = buildSections html rest ctx) ∧
    (parseAustralianHtml cHtmlC7 actA none).provisions = [] ∧
    (parseAustralianHtml cHtmlC7 actA none).definitions = [] := by
  refine ⟨?_, by decide, by decide⟩
  intro html h rest ctx hl hm
  rcases hl with hl | hl <;> simp [buildSections, stepCtx, hl, hm]

/-- Witness for C7: the malformed heading `—Schedule—` is skipped by the
heading loop. -/
theorem C7_malformed_heading_skipped_witness :
    buildSections [] [cHeadC7] ⟨none, none⟩ = buildSections [] [] ⟨none, none⟩ :=
  C7_malformed_heading_skipped.1 [] cHeadC7 [] ⟨none, none⟩
    (Or.inl (by decide)) (by decide)

/-! ### Claim C6 -/

/-- C6: folding the heading stream in document order, a level-1 or level-2
heading sets the part to the heading text and resets the division; a level-3
or level-4 heading sets the division without touching the part; a level-5
heading never mutates the context; an emitted section carries the (part,
division) snapshot in force immediately before its heading, rendered by
`joinCtx` as `part > division` when both are present (nonempty), just the
present one when only one is present, and `none` when neither is. -/
theorem C6_context_tracking :
    (∀ (ctx : Ctx) (h : RawHeading),
        (headingLevel h.cls = 1 ∨ headingLevel h.cls = 2) →
        stepCtx ctx h = ⟨some h.text, none⟩) ∧
    (∀ (ctx : Ctx) (h : RawHeading),
        (headingLevel h.cls = 3 ∨ headingLevel h.cls = 4) →
        stepCtx ctx h = ⟨ctx.part, some h.text⟩) ∧
    (∀ (ctx : Ctx) (h : RawHeading), headingLevel h.cls = 5 →
        stepCtx ctx h = ctx) ∧
    (∀ (html : Str) (h : RawHeading) (rest : List RawHeading) (ctx : Ctx)
        (num title : Str), headingLevel h.cls = 5 →
        sectMatch h.text = some (num, title) →
        buildSections html (h :: rest) ctx =
          ⟨num, jsTrim title,
            jsSubstring html h.endPos
              (match rest with
               | [] => html.length
               | h2 :: _ => h2.index),
            joinCtx ctx, h.index⟩ :: buildSections html rest ctx) ∧
    (∀ p d : Str, p ≠ [] → d ≠ [] →
        joinCtx ⟨some p, some d⟩ = some (p ++ " > ".toList ++ d)) ∧
    (∀ p : Str, p ≠ [] → joinCtx ⟨some p, none⟩ = some p) ∧
    (∀ d : Str, d ≠ [] → joinCtx ⟨none, some d⟩ = some d) ∧
    joinCtx ⟨none, none⟩ = none := by
  refine ⟨?_, ?_, ?_, ?_, ?_, ?_, ?_, by decide⟩
  · intro ctx h hl
    rcases hl with hl | hl <;> simp [stepCtx, hl]
  · intro ctx h hl
    rcases hl with hl | hl <;> simp [stepCtx, hl]
  · intro ctx h hl
    simp [stepCtx, hl]
  · intro html h rest ctx num title hl hm
    cases rest <;> simp [buildSections, stepCtx, hl, hm]
  · intro p d hp hd
    cases p with
    | nil => exact absurd rfl hp
    | cons a as =>
      cases d with
      | nil => exact absurd rfl hd
      | cons b bs => simp [joinCtx, joinSep]
  · intro p hp
    cases p with
    | nil => exact absurd rfl hp
    | cons a as => simp [joinCtx, joinSep]
  · intro d hd
    cases d with
    | nil => exact absurd rfl hd
    | cons b bs => simp [joinCtx, joinSep]

/-- Witness for C6 at concrete headings and contexts. -/
theorem C6_context_tracking_witness :
    stepCtx ⟨none, some "Division 1".toList⟩
        ⟨"ActHead2".toList, "Part 2".toList, 0, 10⟩ =
      ⟨some "Part 2".toList, none⟩ ∧
    stepCtx ⟨some "Part 2".toList, none⟩
        ⟨"ActHead3".toList, "Division 1".toList, 10, 20⟩ =
      ⟨some "Part 2".toList, some "Division 1".toList⟩ ∧
    stepCtx ⟨some "Part 2".toList, some "Division 1".toList⟩
        ⟨"ActHead5".toList, "6 Interpretation".toList, 20, 30⟩ =
      ⟨some "Part 2".toList, some "Division 1".toList⟩ ∧
    joinCtx ⟨some "Part 2".toList, some "Division 1".toList⟩ =
      some "Part 2 > Division 1".toList :=
  ⟨C6_context_tracking.1 _ _ (Or.inr (by decide)),
   C6_context_tracking.2.1 _ _ (Or.inl (by decide)),
   C6_context_tracking.2.2.1 _ _ (by decide),
   C6_context_tracking.2.2.2.2.1 "Part 2".toList "Division 1".toList
     (by decide) (by decide)⟩

/-! ### Claim C2 -/

/-- The start of the next heading match after heading `i`, or the document
length when heading `i` is the last one. -/
def nextIdx (html : Str) (hs : List RawHeading) (i : Nat) : Nat :=
  match hs[i + 1]? with
  | some h2 => h2.index
  | none => html.length

theorem buildSections_body_span (html : Str) (hs : List RawHeading) :
    ∀ (ctx : Ctx) (i : Nat) (h : RawHeading),
      hs[i]? = some h →
      (headingLevel h.cls = 5 ∨ headingLevel h.cls = 9) →
      ∀ num title, sectMatch h.text = some (num, title) →
      ∃ s ∈ buildSections html hs ctx, s.position = h.index ∧
        s.bodyHtml = jsSubstring html h.endPos (nextIdx html hs i) := by
  induction hs with
  | nil => intro ctx i h hh; simp at hh
  | cons h0 rest ih =>
    intro ctx i h hh hl num title hm
    cases i with
    | zero =>
      rw [List.getElem?_cons_zero] at hh
      have hh0 := Option.some.inj hh
      subst hh0
      have e : buildSections html (h0 :: rest) ctx =
          ⟨num, jsTrim title,
            jsSubstring html h0.endPos (nextIdx html (h0 :: rest) 0),
            joinCtx ctx, h0.index⟩ :: buildSections html rest (stepCtx ctx h0) := by
        rcases hl with hl | hl <;>
          cases rest <;> simp [buildSections, hl, hm, nextIdx]
      rw [e]
      exact ⟨_, List.mem_cons_self _ _, rfl, rfl⟩
    | succ i =>
      rw [List.getElem?_cons_succ] at hh
      obtain ⟨s, hsmem, hpos, hbody⟩ := ih (stepCtx ctx h0) i h hh hl num title hm
      refine ⟨s, ?_, hpos, ?_⟩
      · simp only [buildSections]
        exact List.mem_append_right _ hsmem
      · rw [hbody]
        have : nextIdx html (h0 :: rest) (i + 1) = nextIdx html rest i := by
          simp [nextIdx, List.getElem?_cons_succ]
        rw [this]

/-- C2: for every section-level heading (level 5, with the legacy level 9
folded in) whose text matches the section-number pattern, the produced
section's body span runs from the end of the heading's own match to the
start of the next heading match of any level in document order, or to the
end of the document when it is the last heading. -/
theorem C2_body_span (html : Str) (i : Nat) (h : RawHeading)
    (hh : (scanHeadings html)[i]? = some h)
    (hl : headingLevel h.cls = 5 ∨ headingLevel h.cls = 9)
    (num title : Str) (hm : sectMatch h.text = some (num, title)) :
    ∃ s ∈ splitIntoSections html, s.position = h.index ∧
      s.bodyHtml = jsSubstring html h.endPos (nextIdx html (scanHeadings html) i) :=
  buildSections_body_span html (scanHeadings html) ⟨none, none⟩ i h hh hl num title hm

/-- Witness for C2 at the scenario-A markup: the level-5 heading at offset 42
with match end 83 is the second and last heading of the document. -/
theorem C2_body_span_witness :
    ∃ s ∈ splitIntoSections cHtmlA, s.position = 42 ∧
      s.bodyHtml =
        jsSubstring cHtmlA 83 (nextIdx cHtmlA (scanHeadings cHtmlA) 1) :=
  C2_body_span cHtmlA 1
    ⟨"ActHead5".toList, "6 Interpretation".toList, 42, 83⟩
    (by decide) (Or.inl (by decide)) "6".toList "Interpretation".toList
    (by decide)

/-! ### Claim C8 -/

/-- C8: a (term, definition) pair is produced from a definition-class
fragment exactly when the first emphasis-styled span found in the raw
fragment has normalized (and trimmed) text of length strictly between 1 and
100; the produced definition text is the normalized whole fragment capped at
4000 characters and the source provision is the given section reference. -/
theorem C8_definition_pairs (body ref : Str) (d : Defn) :
    d ∈ extractDefinitions body ref ↔
      ∃ m ∈ scanPTags classAltDef body, ∃ raw,
        findTerm m.inner = some raw ∧
        1 < (jsTrim (stripHtml raw)).length ∧
        (jsTrim (stripHtml raw)).length < 100 ∧
        d = ⟨jsTrim (stripHtml raw), (stripHtml m.inner).take 4000, some ref⟩ := by
  unfold extractDefinitions
  rw [List.mem_filterMap]
  constructor
  · rintro ⟨m, hm, hf⟩
    refine ⟨m, hm, ?_⟩
    cases hft : findTerm m.inner with
    | none => rw [hft] at hf; simp at hf
    | some raw =>
      rw [hft] at hf
      simp only [] at hf
      split at hf
      · rename_i hcond
        have hd := Option.some.inj hf
        exact ⟨raw, rfl, hcond.2.1, hcond.2.2, hd.symm⟩
      · simp at hf
  · rintro ⟨m, hm, raw, hft, h1, h2, rfl⟩
    refine ⟨m, hm, ?_⟩
    rw [hft]
    simp only []
    rw [if_pos ?_]
    refine ⟨?_, h1, h2⟩
    intro hnil
    rw [hnil] at h1
    simp at h1

/-! ### Claim C5 -/

/-- Case-insensitive string equality (both sides lowercased). -/
def ciStrEq (a b : Str) : Prop :=
  a.map Char.toLower = b.map Char.toLower

/-- A class that the heading regex can capture: one of the two-family set
(`ActHead`/`New`/`Heading`, matched case-insensitively) followed by a single
digit `1`–`9`. -/
def validHeadingClass (cls : Str) : Prop :=
  ∃ pre c, cls = pre ++ [c] ∧ digit19 c = true ∧
    (ciStrEq pre "ActHead".toList ∨ ciStrEq pre "New".toList ∨
     ciStrEq pre "Heading".toList)

theorem ciStarts_ciStrEq : ∀ (pat s : Str), ciStarts pat s = true →
    ciStrEq (s.take pat.length) pat
  | [], _, _ => by simp [ciStrEq]
  | p :: ps, [], h => by simp [ciStarts] at h
  | p :: ps, c :: cs, h => by
    simp only [ciStarts, Bool.and_eq_true] at h
    obtain ⟨h1, h2⟩ := h
    have h1' : p.toLower = c.toLower := by simpa [ciEq] using h1
    have ih := ciStarts_ciStrEq ps cs h2
    simp only [ciStrEq, List.length_cons, List.take_succ_cons,
      List.map_cons, List.cons.injEq] at *
    exact ⟨h1'.symm, ih⟩

theorem tryFamily_valid {fam s cls r : Str}
    (h : tryFamily fam s = some (cls, r)) :
    ∃ c, cls = s.take fam.length ++ [c] ∧ digit19 c = true ∧
      ciStrEq (s.take fam.length) fam := by
  revert h
  unfold tryFamily
  split
  · rename_i hst
    split
    · split
      · rename_i hd
        intro h
        simp only [Option.some.injEq, Prod.mk.injEq] at h
        obtain ⟨h1, -⟩ := h
        simp only [Bool.and_eq_true] at hd
        exact ⟨_, h1.symm, hd.1, ciStarts_ciStrEq fam s hst⟩
      · intro h; simp at h
    · intro h; simp at h
  · intro h; simp at h

theorem classAltHeading_valid {s cls r : Str}
    (h : classAltHeading s = some (cls, r)) : validHeadingClass cls := by
  revert h
  unfold classAltHeading
  split
  · rename_i p heq
    obtain ⟨cls', r'⟩ := p
    intro h
    simp only [Option.some.injEq, Prod.mk.injEq] at h
    obtain ⟨c, h1, h2, h3⟩ := tryFamily_valid heq
    exact ⟨_, c, h.1 ▸ h1, h2, Or.inl h3⟩
  · split
    · rename_i p heq
      obtain ⟨cls', r'⟩ := p
      intro h
      simp only [Option.some.injEq, Prod.mk.injEq] at h
      obtain ⟨c, h1, h2, h3⟩ := tryFamily_valid heq
      exact ⟨_, c, h.1 ▸ h1, h2, Or.inr (Or.inl h3)⟩
    · intro h
      obtain ⟨c, h1, h2, h3⟩ := tryFamily_valid h
      exact ⟨_, c, h1, h2, Or.inr (Or.inr h3)⟩

theorem attemptAt_cls {alt : Str → Option (Str × Str)} {P : Str → Prop}
    (halt : ∀ s cls r, alt s = some (cls, r) → P cls)
    {s2 : Str} {j : Nat} {cls inner rest : Str}
    (h : attemptAt alt s2 j = some (cls, inner, rest)) : P cls := by
  simp only [attemptAt] at h
  split at h
  · cases heq : alt (List.drop 7 (List.drop j s2)) with
    | none => rw [heq] at h; simp only [] at h; simp at h
    | some p =>
      obtain ⟨cls', aq⟩ := p
      rw [heq] at h
      simp only [] at h
      cases hg : afterGt aq with
      | none => rw [hg] at h; simp only [] at h; simp at h
      | some a3 =>
        rw [hg] at h
        simp only [] at h
        cases hsp : splitFirstCI "</p>".toList a3 with
        | none => rw [hsp] at h; simp only [] at h; simp at h
        | some pr =>
          obtain ⟨inner', rest'⟩ := pr
          rw [hsp] at h
          simp only [Option.some.injEq, Prod.mk.injEq] at h
          exact h.1 ▸ halt _ _ _ heq
  · simp at h

theorem tryClassPos_cls {alt : Str → Option (Str × Str)} {P : Str → Prop}
    (halt : ∀ s cls r, alt s = some (cls, r) → P cls) (s2 : Str) :
    ∀ (j : Nat) {cls inner rest : Str},
      tryClassPos alt s2 j = some (cls, inner, rest) → P cls := by
  intro j
  induction j with
  | zero => intro cls inner rest h; exact attemptAt_cls halt h
  | succ j ihj =>
    intro cls inner rest
    rw [tryClassPos]
    split
    · rename_i p heq
      obtain ⟨cls', inner', rest'⟩ := p
      intro h
      simp only [Option.some.injEq, Prod.mk.injEq] at h
      exact h.1 ▸ attemptAt_cls halt heq
    · exact fun h => ihj h

theorem matchPTagAt_cls {alt : Str → Option (Str × Str)} {P : Str → Prop}
    (halt : ∀ s cls r, alt s = some (cls, r) → P cls) :
    ∀ {s : Str} {cls inner rest : Str},
      matchPTagAt alt s = some (cls, inner, rest) → P cls := by
  intro s cls inner rest h
  rcases s with - | ⟨c0, - | ⟨c1, s2⟩⟩
  · simp [matchPTagAt] at h
  · simp [matchPTagAt] at h
  · simp only [matchPTagAt] at h
    split at h
    · exact tryClassPos_cls halt s2 _ h
    · simp at h

theorem scanPTagsGo_cls {alt : Str → Option (Str × Str)} {P : Str → Prop}
    (halt : ∀ s cls r, alt s = some (cls, r) → P cls) :
    ∀ (f : Nat) (s : Str) (pos : Nat) (m : PMatch),
      m ∈ scanPTagsGo alt f s pos → P m.cls := by
  intro f
  induction f with
  | zero => intro s pos m hm; simp [scanPTagsGo] at hm
  | succ f ihf =>
    intro s pos m hm
    cases s with
    | nil => simp [scanPTagsGo] at hm
    | cons c cs =>
      rw [scanPTagsGo] at hm
      split at hm
      · rename_i cls' inner' rest' heq
        rcases List.mem_cons.mp hm with h | h
        · subst h; exact matchPTagAt_cls halt heq
        · exact ihf _ _ m h
      · exact ihf _ _ m hm

theorem scanHeadings_valid (html : Str) (h : RawHeading)
    (hm : h ∈ scanHeadings html) : validHeadingClass h.cls := by
  unfold scanHeadings at hm
  rw [List.mem_map] at hm
  obtain ⟨m, hmm, rfl⟩ := hm
  exact scanPTagsGo_cls (fun _ _ _ hh => classAltHeading_valid hh) _ _ _ m hmm

/-- C5: every heading the scanner produces carries a family class with a
digit suffix `1`–`9` (so a class with any other suffix yields no heading at
all and the fragment is invisible to the rest of the pipeline rather than an
error); for a suffix `1`–`8` the normalized level equals that digit; and a
suffix-9 heading is processed by the heading loop exactly as a level-5
(section-level) heading. -/
theorem C5_level_normalization :
    (∀ (html : Str) (h : RawHeading), h ∈ scanHeadings html →
        validHeadingClass h.cls) ∧
    (∀ (pre : Str) (c : Char),
        c ∈ ['1', '2', '3', '4', '5', '6', '7', '8'] →
        headingLevel (pre ++ [c]) = c.toNat - '0'.toNat) ∧
    (∀ (html : Str) (h : RawHeading) (rest : List RawHeading) (ctx : Ctx),
        headingLevel h.cls = 9 →
        buildSections html (h :: rest) ctx =
          buildSections html ({h with cls := "ActHead5".toList} :: rest) ctx) := by
  refine ⟨scanHeadings_valid, ?_, ?_⟩
  · intro pre c hc
    have hl : (pre ++ [c]).getLast? = some c := List.getLast?_concat pre
    unfold headingLevel
    rw [hl]
    fin_cases hc <;> decide
  · intro html h rest ctx hl
    have h5 : headingLevel ['A', 'c', 't', 'H', 'e', 'a', 'd', '5'] = 5 := by
      decide
    cases rest <;> simp [buildSections, stepCtx, hl, h5]

/-- Witness for C5: the scenario-A headings are valid family classes; the
level of `ActHead3` is 3; a `Heading9` heading behaves as section-level. -/
theorem C5_level_normalization_witness :
    validHeadingClass
      (⟨"ActHead2".toList, "Part I—Preliminary".toList, 0, 42⟩ : RawHeading).cls ∧
    headingLevel ("ActHead".toList ++ ['3']) = '3'.toNat - '0'.toNat ∧
    buildSections [] [⟨"Heading9".toList, "7 Title".toList, 0, 20⟩] ⟨none, none⟩ =
      buildSections []
        [⟨"ActHead5".toList, "7 Title".toList, 0, 20⟩] ⟨none, none⟩ :=
  ⟨C5_level_normalization.1 cHtmlA _ (by decide),
   C5_level_normalization.2.1 "ActHead".toList '3' (by decide),
   C5_level_normalization.2.2 [] ⟨"Heading9".toList, "7 Title".toList, 0, 20⟩
     [] ⟨none, none⟩ (by decide)⟩

end AusLaw
